import Mathlib

/-!
Verification of the utility transforms in
`sdks/python/apache_beam/transforms/util.py`: `CoGroupByKey`, `Keys`,
`Values`, `KvSwap` and `RemoveDuplicates`.

Shallow embedding: a `PCollection` of elements of type `α` is modelled as a
`List α`.  The engine primitives the file consumes are modelled as follows:

* `Map(f, args...)` is `List.map`;
* `Flatten()` is list concatenation (`List.flatten` of the per-source lists);
* `GroupByKey()` is `groupByKey` below: for every distinct key of the input
  (set semantics on keys) one row carrying the list of values that had that
  key, in the order in which they occur in the flattened input.  The Beam
  contract leaves row order and intra-row order unspecified; this embedding
  fixes the canonical order produced by an in-memory, order-preserving
  runner, which is the order the direct runner delivers;
* `CombinePerKey(f)` is `groupByKey` followed by applying `f` to each
  row's value list.

Fallible Python operations are modelled with `Option`:
`result_value[tag]` on a tuple raises `IndexError` for an out-of-range
index and on a dict raises `KeyError` for a missing key, so the two
embeddings of `result_value[tag].append(value)` (`appendAtIdx`,
`appendAtTag`) return `none` exactly in those situations, and the merge
step and whole pipeline are `Option`-valued.

Python dicts are modelled as association lists: the `kwargs` dict of
`CoGroupByKey.__init__` as a `List (String × α)` with (by Python's dict
semantics) distinct keys, and the dict-shaped input of `CoGroupByKey` as a
`List (T × List (K × V))` of its items.
-/

namespace BeamUtil

/-- Model of `_pair_tag_with_value(key_value, tag)`: `(key, value) ↦ (key, (tag, value))`. -/
def pair_tag_with_value {K V T : Type} (key_value : K × V) (tag : T) :
    K × T × V :=
  (key_value.1, (tag, key_value.2))

/-- The fan-out / fan-in stage of `CoGroupByKey.expand`: every source is
mapped with `Map(_pair_tag_with_value, tag)` (one transform per source,
closing over its own tag), and the results are concatenated (`Flatten`). -/
def tagAndFlatten {K V T : Type} (pcolls : List (T × List (K × V))) :
    List (K × T × V) :=
  (pcolls.map (fun tp => tp.2.map (fun kv => pair_tag_with_value kv tp.1))).flatten

/-- The engine's `GroupByKey` primitive, in the canonical order of an
in-memory order-preserving runner: one row per distinct key, carrying the
values under that key in input order. -/
def groupByKey {K A : Type} [DecidableEq K] (l : List (K × A)) :
    List (K × List A) :=
  (l.map Prod.fst).dedup.map
    (fun k => (k, (l.filter (fun p => decide (p.1 = k))).map Prod.snd))

/-- Model of `result_value[tag].append(value)` for the sequence case, where
`result_value` is a tuple of lists and `tag` an index: `none` models the
`IndexError` raised when `i` is out of range. -/
def appendAtIdx {V : Type} (c : List (List V)) (i : Nat) (v : V) :
    Option (List (List V)) :=
  match c.get? i with
  | none => none
  | some s => some (c.set i (s ++ [v]))

/-- Model of `result_value[tag].append(value)` for the dict case, where
`result_value` is a dict (association list) from tag to list: `none`
models the `KeyError` raised when `t` is not a key. -/
def appendAtTag {V T : Type} [DecidableEq T] (c : List (T × List V))
    (t : T) (v : V) : Option (List (T × List V)) :=
  if c.any (fun p => decide (p.1 = t)) then
    some (c.map (fun p => if p.1 = t then (p.1, p.2 ++ [v]) else p))
  else none

/-- Model of `_merge_tagged_vals_under_key(key_grouped, result_ctor,
result_ctor_arg)` for the sequence case: `result_ctor` is
`lambda size: tuple([] for _ in xrange(size))` and `result_ctor_arg` is
`len(pcolls)`; the loop appends each grouped `(tag, value)` into slot
`tag` of the freshly built container. -/
def merge_tagged_vals_under_key_seq {K V : Type}
    (key_grouped : K × List (Nat × V)) (size : Nat) :
    Option (K × List (List V)) :=
  (key_grouped.2.foldlM (fun c tv => appendAtIdx c tv.1 tv.2)
      (List.replicate size [])).map
    (fun c => (key_grouped.1, c))

/-- Model of `_merge_tagged_vals_under_key(key_grouped, result_ctor,
result_ctor_arg)` for the dict case: `result_ctor` is `lambda tags: dict((tag, []) for tag in
tags)` and `result_ctor_arg` is `pcolls.keys()`; the loop appends each
grouped `(tag, value)` under key `tag` of the freshly built dict. -/
def merge_tagged_vals_under_key_dict {K V T : Type} [DecidableEq T]
    (key_grouped : K × List (T × V)) (tags : List T) :
    Option (K × List (T × List V)) :=
  (key_grouped.2.foldlM (fun c tv => appendAtTag c tv.1 tv.2)
      (tags.map (fun t => (t, [])))).map
    (fun c => (key_grouped.1, c))

/-- Model of `CoGroupByKey.expand` on a dict-shaped input (modelled by its items
list): tag-pair each source, flatten, group by key, and merge every
grouped row with the dict-shaped result constructor. -/
def coGroupByKeyDict {K V T : Type} [DecidableEq K] [DecidableEq T]
    (pcolls : List (T × List (K × V))) :
    Option (List (K × List (T × List V))) :=
  (groupByKey (tagAndFlatten pcolls)).mapM
    (fun kg => merge_tagged_vals_under_key_dict kg (pcolls.map Prod.fst))

/-- Model of `CoGroupByKey.expand` on a list/tuple-shaped input: the sources are
enumerated (`tags` are the indices `0..N-1`), tag-paired, flattened,
grouped by key, and every grouped row is merged with the tuple-shaped
result constructor of arity `len(pcolls)`. -/
def coGroupByKeySeq {K V : Type} [DecidableEq K]
    (pcolls : List (List (K × V))) :
    Option (List (K × List (List V))) :=
  (groupByKey (tagAndFlatten pcolls.enum)).mapM
    (fun kg => merge_tagged_vals_under_key_seq kg pcolls.length)

/-- Model of `CoGroupByKey.__init__(**kwargs)`: pops `'pipeline'` (default `None`),
then raises `ValueError` listing the remaining keys if any other keyword
argument is present.  `kwargs` is modelled as an association list with the
distinct keys of a Python dict. -/
def coGroupByKey_init {A : Type} (kwargs : List (String × A)) :
    Except (List String) (Option A) :=
  if (kwargs.filter (fun kv => decide (kv.1 ≠ "pipeline"))).isEmpty then
    Except.ok ((kwargs.find? (fun kv => decide (kv.1 = "pipeline"))).map Prod.snd)
  else
    Except.error ((kwargs.filter (fun kv => decide (kv.1 ≠ "pipeline"))).map Prod.fst)

/-- The per-input check loop of `CoGroupByKey.expand`:
`if self.pipeline: assert pcoll.pipeline == self.pipeline` for every input
collection.  `truthy` models Python truthiness of a pipeline object
(`if self.pipeline:` is skipped both when `self.pipeline` is `None` and
when it is falsy); `ps` is the list of the inputs' pipelines. -/
def checkPipelines {P : Type} [DecidableEq P] (truthy : P → Bool)
    (pipeline : Option P) (ps : List P) : Bool :=
  ps.all (fun p =>
    match pipeline with
    | none => true
    | some q => if truthy q then decide (p = q) else true)

/-- Model of `CoGroupByKey.expand` on a list-shaped input together with its
construction-time pipeline check: each input collection carries the
pipeline it belongs to, and the assertion loop runs before any grouping is
composed; `Except.error ()` models the `AssertionError`. -/
def expandSeqChecked {K V P : Type} [DecidableEq K] [DecidableEq P]
    (truthy : P → Bool) (pipeline : Option P)
    (pcolls : List (P × List (K × V))) :
    Except Unit (Option (List (K × List (List V)))) :=
  if checkPipelines truthy pipeline (pcolls.map Prod.fst) then
    Except.ok (coGroupByKeySeq (pcolls.map Prod.snd))
  else
    Except.error ()

/-- Model of `Keys()`: `Map(lambda (k, v): k)`. -/
def Keys {A B : Type} (pcoll : List (A × B)) : List A :=
  pcoll.map (fun k_v => k_v.1)

/-- Model of `Values()`: `Map(lambda (k, v): v)`. -/
def Values {A B : Type} (pcoll : List (A × B)) : List B :=
  pcoll.map (fun k_v1 => k_v1.2)

/-- Model of `KvSwap()`: `Map(lambda (k, v): (v, k))`. -/
def KvSwap {A B : Type} (pcoll : List (A × B)) : List (B × A) :=
  pcoll.map (fun k_v2 => (k_v2.2, k_v2.1))

/-- The engine's `CombinePerKey(f)` primitive: group by key, then combine
each row's value list with `f`. -/
def combinePerKey {K A B : Type} [DecidableEq K] (f : List A → B)
    (l : List (K × A)) : List (K × B) :=
  (groupByKey l).map (fun kv => (kv.1, f kv.2))

/-- Model of `RemoveDuplicates`: `Map(lambda v: (v, None))`, then
`CombinePerKey(lambda vs: None)`, then `Keys()`. -/
def removeDuplicates {V : Type} [DecidableEq V] (pcoll : List V) : List V :=
  Keys (combinePerKey (fun _ => ()) (pcoll.map (fun v => (v, ()))))

/-- Shorthand used in the specifications below: the values of the keyed
collection `pc` under the key `k`, in their order in `pc`. -/
def valsUnderKey {K V : Type} [DecidableEq K] (k : K) (pc : List (K × V)) :
    List V :=
  (pc.filter (fun kv => decide (kv.1 = k))).map Prod.snd

/-- Shorthand used in the specifications below: the `(tag, value)` sequence
that the grouping stage delivers for the key `k` — the flattened tagged
collection restricted to `k`. -/
def taggedValsForKey {K V T : Type} [DecidableEq K]
    (pcolls : List (T × List (K × V))) (k : K) : List (T × V) :=
  ((tagAndFlatten pcolls).filter (fun p => decide (p.1 = k))).map Prod.snd

/-- Shorthand used in the specifications below: the output row that
`_merge_tagged_vals_under_key` produces from the grouped row `kg` in the
dict case — a dict with the full `tags` list as keys, each tag holding the
values grouped under it for this row's key. -/
def dictRow {K V T : Type} [DecidableEq T] (tags : List T)
    (kg : K × List (T × V)) : K × List (T × List V) :=
  (kg.1, tags.map (fun t =>
    (t, (kg.2.filter (fun tv => decide (tv.1 = t))).map Prod.snd)))

/-- Shorthand used in the specifications below: the output row that
`_merge_tagged_vals_under_key` produces from the grouped row `kg` in the
sequence case — a tuple of arity `size`, slot `i` holding the values
grouped under tag `i` for this row's key. -/
def seqRow {K V : Type} (size : Nat) (kg : K × List (Nat × V)) :
    K × List (List V) :=
  (kg.1, (List.range size).map (fun i =>
    (kg.2.filter (fun tv => decide (tv.1 = i))).map Prod.snd))

/-! ### Basic lemmas about the grouping stage -/

theorem groupByKey_map_fst {K A : Type} [DecidableEq K] (l : List (K × A)) :
    (groupByKey l).map Prod.fst = (l.map Prod.fst).dedup := by
  simp [groupByKey, List.map_map, Function.comp_def]

theorem mem_groupByKey {K A : Type} [DecidableEq K] {l : List (K × A)}
    {k : K} {s : List A} (h : (k, s) ∈ groupByKey l) :
    k ∈ l.map Prod.fst ∧
      s = (l.filter (fun p => decide (p.1 = k))).map Prod.snd := by
  simp only [groupByKey, List.mem_map] at h
  obtain ⟨k', hk', hEq⟩ := h
  obtain ⟨hk1, hk2⟩ := Prod.mk.injEq .. ▸ hEq
  subst hk1
  exact ⟨List.mem_dedup.mp hk', hk2.symm⟩

/-! ### The merge loop: appending each grouped `(tag, value)` into its slot -/

theorem foldlM_appendAtIdx {V : Type} :
    ∀ (l : List (Nat × V)) (c : List (List V)),
      (∀ tv ∈ l, tv.1 < c.length) →
      ∃ c', l.foldlM (fun c tv => appendAtIdx c tv.1 tv.2) c = some c' ∧
        c'.length = c.length ∧
        ∀ i (h : i < c.length) (h' : i < c'.length),
          c'.get ⟨i, h'⟩ =
            c.get ⟨i, h⟩ ++
              (l.filter (fun tv => decide (tv.1 = i))).map Prod.snd := by
  intro l
  induction l with
  | nil =>
      intro c _
      exact ⟨c, by simp [List.foldlM_nil], rfl, by intro i h h'; simp⟩
  | cons tv l ih =>
      intro c hc
      have ht : tv.1 < c.length := hc tv (List.mem_cons_self _ _)
      have hstep : appendAtIdx c tv.1 tv.2 =
          some (c.set tv.1 (c.get ⟨tv.1, ht⟩ ++ [tv.2])) := by
        simp [appendAtIdx, List.get?_eq_getElem?, List.getElem?_eq_getElem ht,
          List.get_eq_getElem]
      obtain ⟨c', hfold, hlen, hget⟩ :=
        ih (c.set tv.1 (c.get ⟨tv.1, ht⟩ ++ [tv.2])) (by
          intro tv' htv'
          rw [List.length_set]
          exact hc tv' (List.mem_cons_of_mem _ htv'))
      refine ⟨c', ?_, by rw [hlen, List.length_set], ?_⟩
      · rw [List.foldlM_cons, hstep]
        simpa using hfold
      · intro i h h'
        have h₁ : i < (c.set tv.1 (c.get ⟨tv.1, ht⟩ ++ [tv.2])).length := by
          rw [List.length_set]; exact h
        rw [hget i h₁ h']
        by_cases hi : tv.1 = i
        · subst hi
          have hset : (c.set tv.1 (c.get ⟨tv.1, ht⟩ ++ [tv.2])).get ⟨tv.1, h₁⟩ =
              c.get ⟨tv.1, ht⟩ ++ [tv.2] := by
            simp [List.get_eq_getElem, List.getElem_set]
          rw [hset, List.filter_cons]
          simp [List.append_assoc]
        · have hset : (c.set tv.1 (c.get ⟨tv.1, ht⟩ ++ [tv.2])).get ⟨i, h₁⟩ =
              c.get ⟨i, h⟩ := by
            simp [List.get_eq_getElem, List.getElem_set, hi]
          rw [hset, List.filter_cons]
          simp [hi]

theorem foldlM_appendAtTag {V T : Type} [DecidableEq T] :
    ∀ (l : List (T × V)) (c : List (T × List V)),
      (∀ tv ∈ l, tv.1 ∈ c.map Prod.fst) →
      l.foldlM (fun c tv => appendAtTag c tv.1 tv.2) c =
        some (c.map (fun p =>
          (p.1, p.2 ++ (l.filter (fun tv => decide (tv.1 = p.1))).map Prod.snd))) := by
  intro l
  induction l with
  | nil =>
      intro c _
      simp [List.foldlM_nil]
  | cons tv l ih =>
      intro c hc
      have ht : c.any (fun p => decide (p.1 = tv.1)) = true := by
        rcases List.mem_map.mp (hc tv (List.mem_cons_self _ _)) with ⟨p, hp, hfst⟩
        exact List.any_eq_true.mpr ⟨p, hp, by simp [hfst]⟩
      have hstep : appendAtTag c tv.1 tv.2 =
          some (c.map (fun p => if p.1 = tv.1 then (p.1, p.2 ++ [tv.2]) else p)) := by
        simp [appendAtTag, ht]
      have hfst : (c.map (fun p => if p.1 = tv.1 then (p.1, p.2 ++ [tv.2]) else p)).map
          Prod.fst = c.map Prod.fst := by
        rw [List.map_map]
        apply List.map_congr_left
        intro p _
        by_cases h : p.1 = tv.1 <;> simp [h]
      rw [List.foldlM_cons, hstep]
      simp only [Option.bind_eq_bind, Option.some_bind]
      rw [ih _ (by intro tv' h'; rw [hfst]; exact hc tv' (List.mem_cons_of_mem _ h'))]
      congr 1
      rw [List.map_map]
      apply List.map_congr_left
      intro p _
      by_cases h : p.1 = tv.1
      · simp [Function.comp_def, h, List.filter_cons, List.append_assoc]
      · have h2 : ¬tv.1 = p.1 := fun hh => h hh.symm
        simp [Function.comp_def, h, h2, List.filter_cons]

/-! ### `Option`-valued `mapM` (the per-row merge over all grouped rows) -/

theorem mapM_option_eq_some_iff {α β : Type} (f : α → Option β) :
    ∀ (l : List α) (l' : List β),
      l.mapM f = some l' ↔ List.Forall₂ (fun a b => f a = some b) l l' := by
  intro l
  induction l with
  | nil =>
      intro l'
      constructor
      · intro h
        rw [List.mapM_nil, Option.pure_def, Option.some.injEq] at h
        subst h
        exact List.Forall₂.nil
      · intro h
        have : l' = [] := List.forall₂_nil_left_iff.mp h
        subst this
        rw [List.mapM_nil, Option.pure_def]
  | cons a l ih =>
      intro l'
      constructor
      · intro h
        rw [List.mapM_cons] at h
        cases hb : f a with
        | none => rw [hb] at h; simp at h
        | some b =>
            rw [hb] at h
            simp only [Option.bind_eq_bind, Option.some_bind] at h
            cases hbs : l.mapM f with
            | none => rw [hbs] at h; simp at h
            | some bs =>
                rw [hbs] at h
                simp only [Option.some_bind, Option.pure_def,
                  Option.some.injEq] at h
                subst h
                exact List.Forall₂.cons hb ((ih bs).mp hbs)
      · intro h
        rcases List.forall₂_cons_left_iff.mp h with ⟨b, u', hab, hl, rfl⟩
        rw [List.mapM_cons, hab]
        simp only [Option.bind_eq_bind, Option.some_bind]
        rw [(ih u').mpr hl]
        simp

theorem mapM_option_some_of_forall {α β : Type} (f : α → Option β) :
    ∀ l : List α, (∀ a ∈ l, (f a).isSome) →
      ∃ l', l.mapM f = some l' ∧
        List.Forall₂ (fun a b => f a = some b) l l' := by
  intro l
  induction l with
  | nil =>
      intro _
      exact ⟨[], by rw [List.mapM_nil]; rfl, List.Forall₂.nil⟩
  | cons a l ih =>
      intro h
      rcases Option.isSome_iff_exists.mp (h a (List.mem_cons_self _ _)) with ⟨b, hb⟩
      rcases ih (fun a' ha' => h a' (List.mem_cons_of_mem _ ha')) with ⟨l', hl', hf⟩
      refine ⟨b :: l', ?_, List.Forall₂.cons hb hf⟩
      rw [List.mapM_cons, hb]
      simp only [Option.bind_eq_bind, Option.some_bind]
      rw [hl']
      rfl

theorem mapM_option_append {α β : Type} (f : α → Option β) :
    ∀ (l₁ l₂ : List α) (o₁ o₂ : List β),
      l₁.mapM f = some o₁ → l₂.mapM f = some o₂ →
      (l₁ ++ l₂).mapM f = some (o₁ ++ o₂) := by
  intro l₁
  induction l₁ with
  | nil =>
      intro l₂ o₁ o₂ h₁ h₂
      rw [List.mapM_nil, Option.pure_def, Option.some.injEq] at h₁
      subst h₁
      simpa using h₂
  | cons a l ih =>
      intro l₂ o₁ o₂ h₁ h₂
      rw [List.mapM_cons] at h₁
      cases hb : f a with
      | none => rw [hb] at h₁; simp at h₁
      | some b =>
          rw [hb] at h₁
          simp only [Option.bind_eq_bind, Option.some_bind] at h₁
          cases hbs : l.mapM f with
          | none => rw [hbs] at h₁; simp at h₁
          | some bs =>
              rw [hbs] at h₁
              simp only [Option.some_bind, Option.pure_def,
                Option.some.injEq] at h₁
              subst h₁
              rw [List.cons_append, List.mapM_cons, hb]
              simp only [Option.bind_eq_bind, Option.some_bind]
              rw [ih l₂ bs o₂ hbs h₂]
              simp

theorem forall₂_map_eq {α β γ : Type} {R : α → β → Prop} {g : β → γ}
    {h : α → γ} (hR : ∀ a b, R a b → g b = h a) :
    ∀ {l : List α} {l' : List β}, List.Forall₂ R l l' →
      l'.map g = l.map h := by
  intro l l' hf
  induction hf with
  | nil => rfl
  | cons hab _ ih => simp [hR _ _ hab, ih]

/-! ### The tagged flattened collection, per key and per tag -/

theorem taggedValsForKey_nil {K V T : Type} [DecidableEq K] (k : K) :
    taggedValsForKey ([] : List (T × List (K × V))) k = [] := rfl

theorem taggedValsForKey_cons {K V T : Type} [DecidableEq K]
    (tp : T × List (K × V)) (rest : List (T × List (K × V))) (k : K) :
    taggedValsForKey (tp :: rest) k =
      (tp.2.filter (fun kv => decide (kv.1 = k))).map (fun kv => (tp.1, kv.2)) ++
        taggedValsForKey rest k := by
  simp [taggedValsForKey, tagAndFlatten, pair_tag_with_value, List.filter_append,
    List.map_append, List.filter_map, List.map_map, Function.comp_def]

theorem taggedValsForKey_tag_not_mem {K V T : Type} [DecidableEq K]
    [DecidableEq T] {pcolls : List (T × List (K × V))} {t : T}
    (h : t ∉ pcolls.map Prod.fst) (k : K) :
    ((taggedValsForKey pcolls k).filter
        (fun tv => decide (tv.1 = t))).map Prod.snd = [] := by
  induction pcolls with
  | nil => simp [taggedValsForKey_nil]
  | cons tp rest ih =>
      rw [taggedValsForKey_cons, List.filter_append, List.map_append]
      have ht : ¬tp.1 = t := by
        intro hEq
        exact h (by simp [← hEq])
      have h2 : t ∉ rest.map Prod.fst := fun hm => h (by simp [hm])
      rw [ih h2]
      simp [List.filter_map, Function.comp_def, ht]

theorem taggedValsForKey_proj {K V T : Type} [DecidableEq K] [DecidableEq T] :
    ∀ {pcolls : List (T × List (K × V))}, (pcolls.map Prod.fst).Nodup →
      ∀ {t : T} {pc : List (K × V)}, (t, pc) ∈ pcolls → ∀ k,
      ((taggedValsForKey pcolls k).filter
          (fun tv => decide (tv.1 = t))).map Prod.snd = valsUnderKey k pc := by
  intro pcolls
  induction pcolls with
  | nil =>
      intro _ t pc h
      exact absurd h (List.not_mem_nil _)
  | cons tp rest ih =>
      intro hnd t pc hmem k
      rw [List.map_cons, List.nodup_cons] at hnd
      rw [taggedValsForKey_cons, List.filter_append, List.map_append]
      rcases List.mem_cons.mp hmem with hEq | hmemRest
      · have hEq' : tp = (t, pc) := hEq.symm
        subst hEq'
        rw [taggedValsForKey_tag_not_mem hnd.1 k, List.append_nil]
        simp [List.filter_map, Function.comp_def, valsUnderKey]
      · have htags : t ∈ rest.map Prod.fst :=
          List.mem_map.mpr ⟨(t, pc), hmemRest, rfl⟩
        have ht : ¬tp.1 = t := fun hEq => hnd.1 (hEq ▸ htags)
        rw [ih hnd.2 hmemRest k]
        simp [List.filter_map, Function.comp_def, ht]

theorem tagAndFlatten_tag_mem {K V T : Type} {p : K × T × V}
    {pcolls : List (T × List (K × V))} (h : p ∈ tagAndFlatten pcolls) :
    p.2.1 ∈ pcolls.map Prod.fst := by
  simp only [tagAndFlatten, List.mem_flatten, List.mem_map] at h
  obtain ⟨seg, ⟨tp, htp, rfl⟩, hpseg⟩ := h
  obtain ⟨kv, hkv, rfl⟩ := List.mem_map.mp hpseg
  exact List.mem_map.mpr ⟨tp, htp, rfl⟩

theorem tagAndFlatten_key_mem_iff {K V T : Type} {k : K}
    {pcolls : List (T × List (K × V))} :
    k ∈ (tagAndFlatten pcolls).map Prod.fst ↔
      ∃ tp ∈ pcolls, k ∈ tp.2.map Prod.fst := by
  constructor
  · intro h
    obtain ⟨p, hp, rfl⟩ := List.mem_map.mp h
    simp only [tagAndFlatten, List.mem_flatten, List.mem_map] at hp
    obtain ⟨seg, ⟨tp, htp, rfl⟩, hpseg⟩ := hp
    obtain ⟨kv, hkv, rfl⟩ := List.mem_map.mp hpseg
    exact ⟨tp, htp, List.mem_map.mpr ⟨kv, hkv, rfl⟩⟩
  · rintro ⟨tp, htp, hk⟩
    obtain ⟨kv, hkv, rfl⟩ := List.mem_map.mp hk
    refine List.mem_map.mpr ⟨pair_tag_with_value kv tp.1, ?_, rfl⟩
    simp only [tagAndFlatten, List.mem_flatten]
    exact ⟨_, List.mem_map.mpr ⟨tp, htp, rfl⟩, List.mem_map.mpr ⟨kv, hkv, rfl⟩⟩

/-! ### The merge step, characterised -/

theorem merge_seq_eq_some {K V : Type} {kg : K × List (Nat × V)} {size : Nat}
    {r : K × List (List V)}
    (h : merge_tagged_vals_under_key_seq kg size = some r) :
    r.1 = kg.1 := by
  unfold merge_tagged_vals_under_key_seq at h
  cases hfold : kg.2.foldlM (fun c tv => appendAtIdx c tv.1 tv.2)
      (List.replicate size []) with
  | none => rw [hfold] at h; simp at h
  | some c =>
      rw [hfold] at h
      simp only [Option.map_some', Option.some.injEq] at h
      rw [← h]

theorem merge_dict_eq_some {K V T : Type} [DecidableEq T]
    {kg : K × List (T × V)} {tags : List T} {r : K × List (T × List V)}
    (h : merge_tagged_vals_under_key_dict kg tags = some r) :
    r.1 = kg.1 := by
  unfold merge_tagged_vals_under_key_dict at h
  cases hfold : kg.2.foldlM (fun c tv => appendAtTag c tv.1 tv.2)
      (tags.map (fun t => (t, []))) with
  | none => rw [hfold] at h; simp at h
  | some c =>
      rw [hfold] at h
      simp only [Option.map_some', Option.some.injEq] at h
      rw [← h]

theorem mapM_option_eq_map {α β : Type} (f : α → Option β) (g : α → β) :
    ∀ l : List α, (∀ a ∈ l, f a = some (g a)) → l.mapM f = some (l.map g) := by
  intro l
  induction l with
  | nil =>
      intro _
      rw [List.mapM_nil, Option.pure_def]
      rfl
  | cons a l ih =>
      intro h
      rw [List.mapM_cons, h a (List.mem_cons_self _ _)]
      simp only [Option.bind_eq_bind, Option.some_bind]
      rw [ih (fun a' ha' => h a' (List.mem_cons_of_mem _ ha'))]
      rfl

/-! ### Merging one grouped row of the pipeline -/

theorem merge_dict_of_grouped {K V T : Type} [DecidableEq K] [DecidableEq T]
    (pcolls : List (T × List (K × V))) {kg : K × List (T × V)}
    (hmem : kg ∈ groupByKey (tagAndFlatten pcolls)) :
    merge_tagged_vals_under_key_dict kg (pcolls.map Prod.fst) =
      some (dictRow (pcolls.map Prod.fst) kg) := by
  obtain ⟨k, s⟩ := kg
  obtain ⟨-, hs⟩ := mem_groupByKey hmem
  have hcond : ∀ tv ∈ s, tv.1 ∈
      ((pcolls.map Prod.fst).map (fun t => (t, ([] : List V)))).map Prod.fst := by
    intro tv htv
    have : tv.1 ∈ pcolls.map Prod.fst := by
      rw [hs] at htv
      obtain ⟨p, hp, rfl⟩ := List.mem_map.mp htv
      exact tagAndFlatten_tag_mem (List.mem_of_mem_filter hp)
    simpa [List.map_map, Function.comp_def] using this
  unfold merge_tagged_vals_under_key_dict
  rw [foldlM_appendAtTag s _ hcond]
  simp [dictRow, List.map_map, Function.comp_def]

theorem merge_seq_of_grouped {K V : Type} [DecidableEq K]
    (pcolls : List (List (K × V))) {kg : K × List (Nat × V)}
    (hmem : kg ∈ groupByKey (tagAndFlatten pcolls.enum)) :
    merge_tagged_vals_under_key_seq kg pcolls.length =
      some (seqRow pcolls.length kg) := by
  obtain ⟨k, s⟩ := kg
  obtain ⟨-, hs⟩ := mem_groupByKey hmem
  have hcond : ∀ tv ∈ s, tv.1 <
      (List.replicate pcolls.length ([] : List V)).length := by
    intro tv htv
    have : tv.1 ∈ pcolls.enum.map Prod.fst := by
      rw [hs] at htv
      obtain ⟨p, hp, rfl⟩ := List.mem_map.mp htv
      exact tagAndFlatten_tag_mem (List.mem_of_mem_filter hp)
    rw [List.enum_map_fst] at this
    simpa [List.length_replicate] using List.mem_range.mp this
  obtain ⟨c', hfold, hlen, hget⟩ := foldlM_appendAtIdx s _ hcond
  have hc' : c' = (List.range pcolls.length).map (fun i =>
      (s.filter (fun tv => decide (tv.1 = i))).map Prod.snd) := by
    apply List.ext_get
    · rw [hlen]
      simp [List.length_replicate, List.length_map, List.length_range]
    · intro n h₁ h₂
      have hn : n < (List.replicate pcolls.length ([] : List V)).length := by
        rw [← hlen]; exact h₁
      rw [hget n hn h₁]
      simp [List.get_eq_getElem, List.getElem_replicate, List.getElem_map,
        List.getElem_range]
  unfold merge_tagged_vals_under_key_seq
  rw [hfold, hc']
  rfl

/-! ### The pipeline, characterised end to end -/

theorem coGroupByKeyDict_spec {K V T : Type} [DecidableEq K] [DecidableEq T]
    (pcolls : List (T × List (K × V))) :
    coGroupByKeyDict pcolls =
      some ((groupByKey (tagAndFlatten pcolls)).map
        (dictRow (pcolls.map Prod.fst))) := by
  unfold coGroupByKeyDict
  exact mapM_option_eq_map _ _ _ (fun kg hkg => merge_dict_of_grouped pcolls hkg)

theorem coGroupByKeySeq_spec {K V : Type} [DecidableEq K]
    (pcolls : List (List (K × V))) :
    coGroupByKeySeq pcolls =
      some ((groupByKey (tagAndFlatten pcolls.enum)).map
        (seqRow pcolls.length)) := by
  unfold coGroupByKeySeq
  exact mapM_option_eq_map _ _ _ (fun kg hkg => merge_seq_of_grouped pcolls hkg)

theorem mem_of_getElem_opt {α : Type} {l : List α} {n : Nat} {a : α}
    (h : l[n]? = some a) : a ∈ l := by
  have h2 : n < l.length := by
    by_contra hc
    rw [List.getElem?_eq_none (Nat.le_of_not_lt hc)] at h
    exact Option.noConfusion h
  rw [List.getElem?_eq_getElem h2, Option.some.injEq] at h
  exact h ▸ List.getElem_mem h2

theorem exists_enum_snd_iff {A : Type} (pcolls : List A) (P : A → Prop) :
    (∃ tp ∈ pcolls.enum, P tp.2) ↔ ∃ pc ∈ pcolls, P pc := by
  constructor
  · rintro ⟨tp, htp, hP⟩
    exact ⟨tp.2, mem_of_getElem_opt (List.mem_enum_iff_getElem?.mp htp), hP⟩
  · rintro ⟨pc, hpc, hP⟩
    obtain ⟨n, hn⟩ := List.mem_iff_get.mp hpc
    refine ⟨(n.1, pc), ?_, hP⟩
    apply List.mem_enum_iff_getElem?.mpr
    show pcolls[n.1]? = some pc
    rw [← hn, List.get_eq_getElem]
    exact List.getElem?_eq_getElem n.2

theorem map_fst_of_fst_preserving {α β K : Type} (g : K × α → K × β)
    (hg : ∀ kg, (g kg).1 = kg.1) (l : List (K × α)) :
    (l.map g).map Prod.fst = l.map Prod.fst := by
  rw [List.map_map]
  apply List.map_congr_left
  intro kg _
  exact hg kg

/-! ### Key set and per-row facts about the two pipeline shapes -/

theorem coGroupByKeyDict_keys {K V T : Type} [DecidableEq K] [DecidableEq T]
    {pcolls : List (T × List (K × V))} {out : List (K × List (T × List V))}
    (hout : coGroupByKeyDict pcolls = some out) :
    (out.map Prod.fst).Nodup ∧
      ∀ k, k ∈ out.map Prod.fst ↔ ∃ tp ∈ pcolls, k ∈ tp.2.map Prod.fst := by
  rw [coGroupByKeyDict_spec, Option.some.injEq] at hout
  subst hout
  rw [map_fst_of_fst_preserving (dictRow (pcolls.map Prod.fst))
    (fun kg => rfl), groupByKey_map_fst]
  constructor
  · exact List.nodup_dedup _
  · intro k
    rw [List.mem_dedup]
    exact tagAndFlatten_key_mem_iff

theorem coGroupByKeySeq_keys {K V : Type} [DecidableEq K]
    {pcolls : List (List (K × V))} {out : List (K × List (List V))}
    (hout : coGroupByKeySeq pcolls = some out) :
    (out.map Prod.fst).Nodup ∧
      ∀ k, k ∈ out.map Prod.fst ↔ ∃ pc ∈ pcolls, k ∈ pc.map Prod.fst := by
  rw [coGroupByKeySeq_spec, Option.some.injEq] at hout
  subst hout
  rw [map_fst_of_fst_preserving (seqRow pcolls.length)
    (fun kg => rfl), groupByKey_map_fst]
  constructor
  · exact List.nodup_dedup _
  · intro k
    rw [List.mem_dedup]
    exact tagAndFlatten_key_mem_iff.trans
      (exists_enum_snd_iff pcolls (fun pc => k ∈ pc.map Prod.fst))

theorem coGroupByKeyDict_row {K V T : Type} [DecidableEq K] [DecidableEq T]
    {pcolls : List (T × List (K × V))} {out : List (K × List (T × List V))}
    (hout : coGroupByKeyDict pcolls = some out)
    {kc : K × List (T × List V)} (hkc : kc ∈ out) :
    kc.2.map Prod.fst = pcolls.map Prod.fst ∧
      ((pcolls.map Prod.fst).Nodup → ∀ t pc, (t, pc) ∈ pcolls →
        (t, valsUnderKey kc.1 pc) ∈ kc.2) := by
  rw [coGroupByKeyDict_spec, Option.some.injEq] at hout
  subst hout
  obtain ⟨kg, hkg, rfl⟩ := List.mem_map.mp hkc
  obtain ⟨k, s⟩ := kg
  obtain ⟨-, hs⟩ := mem_groupByKey hkg
  constructor
  · simp [dictRow, List.map_map, Function.comp_def]
  · intro hnd t pc hmem
    have hval : (s.filter (fun tv => decide (tv.1 = t))).map Prod.snd =
        valsUnderKey k pc := by
      rw [hs]
      exact taggedValsForKey_proj hnd hmem k
    exact List.mem_map.mpr
      ⟨t, List.mem_map.mpr ⟨(t, pc), hmem, rfl⟩, by rw [hval]; rfl⟩

theorem coGroupByKeySeq_row {K V : Type} [DecidableEq K]
    {pcolls : List (List (K × V))} {out : List (K × List (List V))}
    (hout : coGroupByKeySeq pcolls = some out)
    {kc : K × List (List V)} (hkc : kc ∈ out) :
    kc.2.length = pcolls.length ∧
      ∀ i (h : i < pcolls.length) (h' : i < kc.2.length),
        kc.2.get ⟨i, h'⟩ = valsUnderKey kc.1 (pcolls.get ⟨i, h⟩) := by
  rw [coGroupByKeySeq_spec, Option.some.injEq] at hout
  subst hout
  obtain ⟨kg, hkg, rfl⟩ := List.mem_map.mp hkc
  obtain ⟨k, s⟩ := kg
  obtain ⟨-, hs⟩ := mem_groupByKey hkg
  constructor
  · simp [seqRow, List.length_map, List.length_range]
  · intro i h h'
    have hnd : (pcolls.enum.map Prod.fst).Nodup := by
      rw [List.enum_map_fst]
      exact List.nodup_range _
    have hmem : (i, pcolls.get ⟨i, h⟩) ∈ pcolls.enum := by
      apply List.mem_enum_iff_getElem?.mpr
      show pcolls[i]? = some (pcolls.get ⟨i, h⟩)
      rw [List.get_eq_getElem]
      exact List.getElem?_eq_getElem h
    have hval : (s.filter (fun tv => decide (tv.1 = i))).map Prod.snd =
        valsUnderKey k (pcolls.get ⟨i, h⟩) := by
      rw [hs]
      exact taggedValsForKey_proj hnd hmem k
    rw [List.get_eq_getElem]
    simp only [seqRow, List.getElem_map, List.getElem_range]
    exact hval

theorem removeDuplicates_eq_dedup {V : Type} [DecidableEq V]
    (pcoll : List V) : removeDuplicates pcoll = pcoll.dedup := by
  have h1 : removeDuplicates pcoll =
      (groupByKey (pcoll.map (fun v => (v, ())))).map Prod.fst := by
    unfold removeDuplicates combinePerKey Keys
    rw [List.map_map]
    rfl
  rw [h1, groupByKey_map_fst, List.map_map]
  have h2 : (Prod.fst ∘ fun v : V => (v, ())) = id := rfl
  rw [h2, List.map_id]

/-! ### The claims -/

/-- C1: for every family of keyed input collections, mapping-style
(`coGroupByKeyDict`) or sequence-style (`coGroupByKeySeq`), the output of
`CoGroupByKey` has exactly one row for each key in the union of the
inputs' key sets — its key list is duplicate-free and contains a key iff
some input collection contains it — and no row for any other key. -/
theorem claim_C1_output_key_set_is_union {K V T : Type} [DecidableEq K]
    [DecidableEq T] :
    (∀ pcolls : List (T × List (K × V)), ∃ out,
      coGroupByKeyDict pcolls = some out ∧ (out.map Prod.fst).Nodup ∧
        ∀ k, k ∈ out.map Prod.fst ↔ ∃ tp ∈ pcolls, k ∈ tp.2.map Prod.fst) ∧
    (∀ pcolls : List (List (K × V)), ∃ out,
      coGroupByKeySeq pcolls = some out ∧ (out.map Prod.fst).Nodup ∧
        ∀ k, k ∈ out.map Prod.fst ↔ ∃ pc ∈ pcolls, k ∈ pc.map Prod.fst) := by
  constructor
  · intro pcolls
    exact ⟨_, coGroupByKeyDict_spec pcolls,
      (coGroupByKeyDict_keys (coGroupByKeyDict_spec pcolls)).1,
      (coGroupByKeyDict_keys (coGroupByKeyDict_spec pcolls)).2⟩
  · intro pcolls
    exact ⟨_, coGroupByKeySeq_spec pcolls,
      (coGroupByKeySeq_keys (coGroupByKeySeq_spec pcolls)).1,
      (coGroupByKeySeq_keys (coGroupByKeySeq_spec pcolls)).2⟩

/-- C2: every output row's container has the same shape — the full tag
list of a mapping input, or arity N for a sequence of N inputs — and a
tag with no values under the row's key holds an empty sequence in its
slot, never an absent slot. -/
theorem claim_C2_uniform_container_shape {K V T : Type} [DecidableEq K]
    [DecidableEq T] :
    (∀ (pcolls : List (T × List (K × V))) out,
      coGroupByKeyDict pcolls = some out → ∀ kc, kc ∈ out →
        kc.2.map Prod.fst = pcolls.map Prod.fst ∧
        ((pcolls.map Prod.fst).Nodup → ∀ t pc, (t, pc) ∈ pcolls →
          valsUnderKey kc.1 pc = [] → (t, ([] : List V)) ∈ kc.2)) ∧
    (∀ (pcolls : List (List (K × V))) out,
      coGroupByKeySeq pcolls = some out → ∀ kc, kc ∈ out →
        kc.2.length = pcolls.length ∧
        ∀ i (h : i < pcolls.length) (h' : i < kc.2.length),
          valsUnderKey kc.1 (pcolls.get ⟨i, h⟩) = [] →
            kc.2.get ⟨i, h'⟩ = []) := by
  constructor
  · intro pcolls out hout kc hkc
    refine ⟨(coGroupByKeyDict_row hout hkc).1, ?_⟩
    intro hnd t pc hmem hempty
    have hrow := (coGroupByKeyDict_row hout hkc).2 hnd t pc hmem
    rw [hempty] at hrow
    exact hrow
  · intro pcolls out hout kc hkc
    refine ⟨(coGroupByKeySeq_row hout hkc).1, ?_⟩
    intro i h h' hempty
    rw [(coGroupByKeySeq_row hout hkc).2 i h h', hempty]

theorem claim_C2_witness :
    ((1, ([] : List Nat)) ∈ [((0 : Nat), [7]), (1, ([] : List Nat))]) ∧
    ([[7], []] : List (List Nat)).get ⟨1, by decide⟩ = [] := by
  constructor
  · exact ((claim_C2_uniform_container_shape (K := Nat) (V := Nat)
      (T := Nat)).1
      ([(0, [(1, 7)]), (1, [])] : List (Nat × List (Nat × Nat)))
      [(1, [(0, [7]), (1, [])])] (by decide) (1, [(0, [7]), (1, [])])
      (by decide)).2 (by decide) 1 [] (by decide) (by decide)
  · exact ((claim_C2_uniform_container_shape (K := Nat) (V := Nat)
      (T := Nat)).2
      ([[(1, 7)], []] : List (List (Nat × Nat)))
      [(1, [[7], []])] (by decide) (1, [[7], []]) (by decide)).2 1
      (by decide) (by decide) (by decide)

/-- C3: the merge step never shares container state across rows: the
output row for a grouped row `r` is `merge r`, computed from `r` alone
starting from a freshly built `result_ctor` container, so merging any
other rows before or after `r` leaves `r`'s output unchanged. -/
theorem claim_C3_rows_merged_independently {K V : Type} :
    ∀ (size : Nat) (l₁ l₂ : List (K × List (Nat × V)))
      (r : K × List (Nat × V)) o₁ o₂ m,
      l₁.mapM (fun kg => merge_tagged_vals_under_key_seq kg size) = some o₁ →
      l₂.mapM (fun kg => merge_tagged_vals_under_key_seq kg size) = some o₂ →
      merge_tagged_vals_under_key_seq r size = some m →
      (l₁ ++ r :: l₂).mapM
          (fun kg => merge_tagged_vals_under_key_seq kg size) =
        some (o₁ ++ m :: o₂) := by
  intro size l₁ l₂ r o₁ o₂ m h₁ h₂ hm
  have hcons : (r :: l₂).mapM
      (fun kg => merge_tagged_vals_under_key_seq kg size) = some (m :: o₂) := by
    rw [List.mapM_cons, hm]
    simp only [Option.bind_eq_bind, Option.some_bind]
    rw [h₂]
    rfl
  exact mapM_option_append _ l₁ (r :: l₂) o₁ (m :: o₂) h₁ hcons

theorem claim_C3_witness :
    ([((1 : Nat), [((0 : Nat), (9 : Nat))]), (5, [])].mapM
      (fun kg => merge_tagged_vals_under_key_seq kg 1)) =
      some [(1, [[9]]), (5, [[]])] :=
  claim_C3_rows_merged_independently 1 [] [(5, [])] (1, [(0, 9)]) []
    [(5, [[]])] (1, [[9]]) (by decide) (by decide) (by decide)

/-- C4: supplying an explicit pipeline context together with an input
collection whose pipeline differs from it makes `expand` fail its
per-input assertion — a construction-time error raised by the check loop
before any grouping stage is composed. -/
theorem claim_C4_context_mismatch_asserts {K V P : Type} [DecidableEq K]
    [DecidableEq P] :
    ∀ (truthy : P → Bool) (q : P) (pcolls : List (P × List (K × V))),
      truthy q = true → (∃ ppc ∈ pcolls, ppc.1 ≠ q) →
      expandSeqChecked truthy (some q) pcolls = Except.error () := by
  intro truthy q pcolls htr hex
  obtain ⟨ppc, hmem, hne⟩ := hex
  have hchk : checkPipelines truthy (some q) (pcolls.map Prod.fst) = false := by
    apply Bool.eq_false_iff.mpr
    intro hall
    have hp := List.all_eq_true.mp hall ppc.1
      (List.mem_map.mpr ⟨ppc, hmem, rfl⟩)
    simp only [htr, if_true] at hp
    exact hne (of_decide_eq_true hp)
  unfold expandSeqChecked
  rw [hchk]
  rfl

theorem claim_C4_witness :
    expandSeqChecked (fun _ => true) (some (0 : Nat))
      [((1 : Nat), ([] : List (Nat × Nat)))] = Except.error () :=
  claim_C4_context_mismatch_asserts (fun _ => true) 0 [(1, [])] rfl
    ⟨(1, []), by decide, by decide⟩

/-- C5: for sequence-style input, the values of source `i` under a given
key appear in slot `i` of that key's output row exactly as source `i`'s
value list under the key, in their original intra-source order. -/
theorem claim_C5_intra_source_order {K V : Type} [DecidableEq K] :
    ∀ (pcolls : List (List (K × V))) out, coGroupByKeySeq pcolls = some out →
      ∀ kc, kc ∈ out → ∀ i (h : i < pcolls.length) (h' : i < kc.2.length),
        kc.2.get ⟨i, h'⟩ = valsUnderKey kc.1 (pcolls.get ⟨i, h⟩) := by
  intro pcolls out hout kc hkc
  exact (coGroupByKeySeq_row hout hkc).2

theorem claim_C5_witness :
    coGroupByKeySeq [[((1 : Nat), "x")], [(1, "y"), (1, "z")]] =
        some [(1, [["x"], ["y", "z"]])] ∧
    ([["x"], ["y", "z"]] : List (List String)).get ⟨1, by decide⟩ =
      valsUnderKey 1 [((1 : Nat), "y"), (1, "z")] := by
  constructor
  · decide
  · exact claim_C5_intra_source_order [[(1, "x")], [(1, "y"), (1, "z")]]
      [(1, [["x"], ["y", "z"]])] (by decide) (1, [["x"], ["y", "z"]])
      (by decide) 1 (by decide) (by decide)

/-- C6: the `CoGroupByKey` constructor raises `ValueError` iff some
keyword argument other than `'pipeline'` is present; passing only
`'pipeline'`, or no keyword arguments, succeeds. -/
theorem claim_C6_kwargs_validation {A : Type} :
    (∀ kwargs : List (String × A),
      (∃ e, coGroupByKey_init kwargs = Except.error e) ↔
        ∃ kv ∈ kwargs, kv.1 ≠ "pipeline") ∧
    (∀ a : A, coGroupByKey_init [("pipeline", a)] = Except.ok (some a)) ∧
    coGroupByKey_init ([] : List (String × A)) = Except.ok none := by
  refine ⟨?_, fun a => rfl, rfl⟩
  intro kwargs
  by_cases hflt : kwargs.filter (fun kv => decide (kv.1 ≠ "pipeline")) = []
  · have hempty : (kwargs.filter
        (fun kv => decide (kv.1 ≠ "pipeline"))).isEmpty = true :=
      List.isEmpty_iff.mpr hflt
    constructor
    · rintro ⟨e, he⟩
      unfold coGroupByKey_init at he
      rw [hempty] at he
      have he2 : (Except.ok ((kwargs.find?
          (fun kv => decide (kv.1 = "pipeline"))).map Prod.snd) :
          Except (List String) (Option A)) = Except.error e := he
      exact Except.noConfusion he2
    · rintro ⟨kv, hkv, hne⟩
      exact absurd (by simpa using List.filter_eq_nil_iff.mp hflt kv hkv) hne
  · have hempty : (kwargs.filter
        (fun kv => decide (kv.1 ≠ "pipeline"))).isEmpty = false :=
      Bool.eq_false_iff.mpr (fun h => hflt (List.isEmpty_iff.mp h))
    constructor
    · intro _
      obtain ⟨kv, hkv⟩ := List.exists_mem_of_ne_nil _ hflt
      have hkv2 := List.mem_filter.mp hkv
      exact ⟨kv, hkv2.1, by simpa using hkv2.2⟩
    · intro _
      refine ⟨(kwargs.filter
          (fun kv => decide (kv.1 ≠ "pipeline"))).map Prod.fst, ?_⟩
      unfold coGroupByKey_init
      rw [hempty]
      rfl

/-- C7: the transform `RemoveDuplicates` keeps exactly the distinct elements of its
input: same element set, output size at most input size, with equality
iff the input had no duplicates. -/
theorem claim_C7_remove_duplicates {V : Type} [DecidableEq V] :
    ∀ pcoll : List V,
      (∀ v, v ∈ removeDuplicates pcoll ↔ v ∈ pcoll) ∧
      (removeDuplicates pcoll).length ≤ pcoll.length ∧
      ((removeDuplicates pcoll).length = pcoll.length ↔ pcoll.Nodup) := by
  intro pcoll
  rw [removeDuplicates_eq_dedup]
  refine ⟨fun v => List.mem_dedup, (List.dedup_sublist pcoll).length_le, ?_, ?_⟩
  · intro hlen
    have heq := (List.dedup_sublist pcoll).eq_of_length hlen
    exact List.dedup_eq_self.mp heq
  · intro hnd
    rw [List.dedup_eq_self.mpr hnd]

/-- C8: the transform `KvSwap` is an involution on collections of 2-element records,
and `Keys`/`Values` applied to the same pair collection return the two
projections independently (zipping them back recovers the input). -/
theorem claim_C8_projection_algebra {A B : Type} :
    ∀ x : List (A × B),
      KvSwap (KvSwap x) = x ∧
      Keys x = x.map Prod.fst ∧ Values x = x.map Prod.snd ∧
      (Keys x).zip (Values x) = x := by
  intro x
  refine ⟨?_, rfl, rfl, ?_⟩
  · unfold KvSwap
    rw [List.map_map]
    have h : ((fun k_v2 : B × A => (k_v2.2, k_v2.1)) ∘
        (fun k_v2 : A × B => (k_v2.2, k_v2.1))) = id := rfl
    rw [h, List.map_id]
  · unfold Keys Values
    rw [List.zip_map']
    have h : (fun p : A × B => (p.1, p.2)) = id := rfl
    rw [h, List.map_id]

/-- C9: for every grouped row whose tags all come from the
construction-time tag set (indices below N, or the mapping's key list),
every `result_value[tag]` lookup in the merge step succeeds — the
`IndexError`/`KeyError` branch is unreachable — and consequently the
whole pipeline is total in both shapes. -/
theorem claim_C9_merge_lookups_total {K V T : Type} [DecidableEq K]
    [DecidableEq T] :
    (∀ (key_grouped : K × List (Nat × V)) (size : Nat),
      (∀ tv ∈ key_grouped.2, tv.1 < size) →
      (merge_tagged_vals_under_key_seq key_grouped size).isSome) ∧
    (∀ (key_grouped : K × List (T × V)) (tags : List T),
      (∀ tv ∈ key_grouped.2, tv.1 ∈ tags) →
      (merge_tagged_vals_under_key_dict key_grouped tags).isSome) ∧
    (∀ pcolls : List (List (K × V)), (coGroupByKeySeq pcolls).isSome) ∧
    (∀ pcolls : List (T × List (K × V)), (coGroupByKeyDict pcolls).isSome) := by
  refine ⟨?_, ?_, ?_, ?_⟩
  · intro kg size htags
    obtain ⟨c', hfold, -, -⟩ :=
      foldlM_appendAtIdx kg.2 (List.replicate size []) (by
        intro tv htv
        rw [List.length_replicate]
        exact htags tv htv)
    unfold merge_tagged_vals_under_key_seq
    rw [hfold]
    rfl
  · intro kg tags htags
    unfold merge_tagged_vals_under_key_dict
    rw [foldlM_appendAtTag kg.2 _ (by
      intro tv htv
      have hmt : ((tags.map (fun t => (t, ([] : List V)))).map Prod.fst) =
          tags := by
        simp [List.map_map, Function.comp_def]
      rw [hmt]
      exact htags tv htv)]
    rfl
  · intro pcolls
    rw [coGroupByKeySeq_spec]
    rfl
  · intro pcolls
    rw [coGroupByKeyDict_spec]
    rfl

theorem claim_C9_witness :
    (merge_tagged_vals_under_key_seq ((1 : Nat), [((0 : Nat), (7 : Nat))])
      2).isSome ∧
    (merge_tagged_vals_under_key_dict ((1 : Nat), [((3 : Nat), (7 : Nat))])
      [3, 4]).isSome := by
  constructor
  · exact (claim_C9_merge_lookups_total (K := Nat) (V := Nat) (T := Nat)).1
      (1, [(0, 7)]) 2 (by decide)
  · exact (claim_C9_merge_lookups_total (K := Nat) (V := Nat) (T := Nat)).2.1
      (1, [(3, 7)]) [3, 4] (by decide)

/-- C10: with no explicit pipeline context (`self.pipeline` is `None`, or
a falsy object), the per-input pipeline-equality assertion in `expand` is
skipped entirely, so input collections whose pipelines differ from one
another pass the check without error. -/
theorem claim_C10_no_context_check_skipped {K V P : Type} [DecidableEq K]
    [DecidableEq P] :
    ∀ (truthy : P → Bool) (pcolls : List (P × List (K × V))),
      checkPipelines truthy none (pcolls.map Prod.fst) = true ∧
      expandSeqChecked truthy none pcolls =
        Except.ok (coGroupByKeySeq (pcolls.map Prod.snd)) ∧
      ∀ q : P, truthy q = false →
        expandSeqChecked truthy (some q) pcolls =
          Except.ok (coGroupByKeySeq (pcolls.map Prod.snd)) := by
  intro truthy pcolls
  have hnone : checkPipelines truthy none (pcolls.map Prod.fst) = true := by
    apply List.all_eq_true.mpr
    intro p _
    rfl
  refine ⟨hnone, by unfold expandSeqChecked; rw [hnone]; rfl, ?_⟩
  intro q hq
  have hsome : checkPipelines truthy (some q) (pcolls.map Prod.fst) = true := by
    apply List.all_eq_true.mpr
    intro p _
    show (if truthy q then decide (p = q) else true) = true
    rw [hq]
    rfl
  unfold expandSeqChecked
  rw [hsome]
  rfl

theorem claim_C10_witness :
    expandSeqChecked (fun _ => false) (some (0 : Nat))
      [((1 : Nat), [((5 : Nat), (6 : Nat))]), (2, [])] =
      Except.ok (coGroupByKeySeq [[(5, 6)], []]) :=
  (claim_C10_no_context_check_skipped (fun _ => false)
    [(1, [(5, 6)]), (2, [])]).2.2 0 rfl

theorem claim_C1_witness :
    ∃ out, coGroupByKeySeq ([[(1, 2)], [(1, 3), (4, 5)]] :
        List (List (Nat × Nat))) = some out ∧
      (out.map Prod.fst).Nodup ∧
      ∀ k, k ∈ out.map Prod.fst ↔
        ∃ pc ∈ ([[(1, 2)], [(1, 3), (4, 5)]] : List (List (Nat × Nat))),
          k ∈ pc.map Prod.fst :=
  (claim_C1_output_key_set_is_union (K := Nat) (V := Nat) (T := Nat)).2
    [[(1, 2)], [(1, 3), (4, 5)]]

theorem claim_C6_witness :
    coGroupByKey_init [("pipeline", (3 : Nat))] = Except.ok (some 3) :=
  claim_C6_kwargs_validation.2.1 3

theorem claim_C7_witness :
    (∀ v, v ∈ removeDuplicates [(1 : Nat), 1, 2] ↔ v ∈ [(1 : Nat), 1, 2]) ∧
    (removeDuplicates [(1 : Nat), 1, 2]).length ≤ 3 ∧
    ((removeDuplicates [(1 : Nat), 1, 2]).length = 3 ↔
      ([(1 : Nat), 1, 2] : List Nat).Nodup) :=
  claim_C7_remove_duplicates [1, 1, 2]

theorem claim_C8_witness :
    KvSwap (KvSwap [((1 : Nat), "a")]) = [((1 : Nat), "a")] ∧
    Keys [((1 : Nat), "a")] = [((1 : Nat), "a")].map Prod.fst ∧
    Values [((1 : Nat), "a")] = [((1 : Nat), "a")].map Prod.snd ∧
    (Keys [((1 : Nat), "a")]).zip (Values [((1 : Nat), "a")]) =
      [((1 : Nat), "a")] :=
  claim_C8_projection_algebra [(1, "a")]

end BeamUtil
